import Mathlib

/-!
Shallow embedding of the erisa-dashboard claims ingestion pipeline.

Sources embedded:
- `src/apps/claims/models.py` (Claim validation and derived properties,
  ClaimDetail, ClaimFlag, DataUpload),
- `src/apps/claims/management/commands/load_claims_data.py` (CLI loader),
- `src/apps/claims/views.py` (web upload loader, dashboard aggregates,
  flag endpoint).

Modelling conventions:
- Decimal amounts are embedded as exact rationals (Python `Decimal`
  arithmetic on two-decimal-place inputs is exact, and every comparison the
  code performs is decided identically on the rational value).
- A CSV row after `csv.DictReader` is a finite map from column name to raw
  string, embedded as an association list; a missing key raises `KeyError`,
  embedded as a `none` lookup.  `restval` padding of ragged data lines and
  quoted fields are not exercised by any claim and are not modelled.
- Python exceptions that a loader catches are collapsed into `Option`
  (the row is skipped); exceptions no handler catches surface as
  `Except.error` (the batch aborts).
- `transaction.atomic()` is embedded by returning the caller's original
  state on the error branch; autocommit code returns the partially
  mutated state together with the error.
-/

namespace Erisa

/-! ## Raw rows and field parsers -/

/-- One `csv.DictReader` row: column name to raw string field. -/
abbrev RawRow := List (String × String)

/-- `row[key]`: `none` models a `KeyError`. -/
def getCol (r : RawRow) (k : String) : Option String := r.lookup k

def digitsToNat (cs : List Char) : Nat :=
  cs.foldl (fun n c => n * 10 + (c.toNat - 48)) 0

def allDigits (cs : List Char) : Bool := cs.all Char.isDigit

/-- Leading/trailing-whitespace strip, as `Decimal` applies to its input. -/
def trimChars (cs : List Char) : List Char :=
  ((cs.dropWhile Char.isWhitespace).reverse.dropWhile Char.isWhitespace).reverse

/-- `Decimal(s)` on a plain decimal literal (optional sign, digits, at most
one point; surrounding whitespace stripped as `Decimal` does).  The digits
`i.f` denote the exact rational `(i*10^len(f) + f) / 10^len(f)`.  Exponent
and special forms (`NaN`, `Infinity`) are never produced by the data this
system ingests and are not modelled.  `none` models `InvalidOperation`. -/
def parseDecimal (s : String) : Option ℚ :=
  let cs := trimChars s.toList
  let signed : Bool × List Char :=
    match cs with
    | '-' :: t => (true, t)
    | '+' :: t => (false, t)
    | _ => (false, cs)
  let intPart := signed.2.takeWhile (fun c => c ≠ '.')
  let rest := signed.2.dropWhile (fun c => c ≠ '.')
  let body : Option ℚ :=
    match rest with
    | [] =>
        if intPart ≠ [] ∧ allDigits intPart then
          some (mkRat (digitsToNat intPart) 1)
        else none
    | '.' :: frac =>
        if (intPart ≠ [] ∨ frac ≠ []) ∧ allDigits intPart ∧ allDigits frac then
          some (mkRat (digitsToNat intPart * 10 ^ frac.length +
            digitsToNat frac) (10 ^ frac.length))
        else none
    | _ => none
  body.map (fun q => if signed.1 then -q else q)

def isLeapYear (y : Nat) : Bool :=
  y % 4 == 0 && (y % 100 != 0 || y % 400 == 0)

def daysInMonth (y m : Nat) : Nat :=
  if m == 2 then (if isLeapYear y then 29 else 28)
  else if m == 4 || m == 6 || m == 9 || m == 11 then 30
  else 31

/-- Split a character list at every occurrence of the delimiter. -/
def splitOnChar (d : Char) (cs : List Char) : List (List Char) :=
  cs.foldr (fun c acc =>
    match acc with
    | [] => [[c]]
    | a :: as => if c == d then [] :: a :: as else (c :: a) :: as) [[]]

/-- One date field component accepted by `strptime` (digits, bounded width). -/
def dateField (cs : List Char) (width : Nat) : Option Nat :=
  if cs ≠ [] ∧ cs.length ≤ width ∧ allDigits cs then
    some (digitsToNat cs)
  else none

/-- `datetime.strptime(s, "%Y-%m-%d").date()`; `none` models `ValueError`. -/
def parseDate (s : String) : Option (Nat × Nat × Nat) :=
  match splitOnChar '-' s.toList with
  | [ys, ms, ds] => do
      let y ← dateField ys 4
      let m ← dateField ms 2
      let d ← dateField ds 2
      if 1 ≤ m ∧ m ≤ 12 ∧ 1 ≤ d ∧ d ≤ daysInMonth y m then
        pure (y, m, d)
      else none
  | _ => none

/-! ## The Claim model (`models.py`) -/

structure ClaimRec where
  claim_id : String
  patient_name : String
  billed_amount : ℚ
  paid_amount : ℚ
  status : String
  insurer_name : String
  discharge_date : Nat × Nat × Nat
  deriving Repr, DecidableEq

/-- `DecimalField(max_digits=12, decimal_places=2,
validators=[MinValueValidator(0)])` field validation on the exact value. -/
def amountOk (q : ℚ) : Bool :=
  decide (0 ≤ q) && ((q * 100).den == 1) && decide (q < 10000000000)

/-- `Claim.full_clean()`: required/max-length checks on the char fields,
the `choices` check on `status`, the amount validators, and `Claim.clean`'s
paid-versus-billed check.  Note the source guards the latter with Python
truthiness (`if self.paid_amount and self.billed_amount and ...`), so the
check is skipped whenever either amount is zero. -/
def claimValid (c : ClaimRec) : Bool :=
  decide (c.claim_id ≠ "") && decide (c.claim_id.length ≤ 20) &&
  decide (c.patient_name ≠ "") && decide (c.patient_name.length ≤ 200) &&
  amountOk c.billed_amount && amountOk c.paid_amount &&
  (c.status == "Paid" || c.status == "Denied" || c.status == "Under Review") &&
  decide (c.insurer_name ≠ "") && decide (c.insurer_name.length ≤ 100) &&
  !(decide (c.paid_amount ≠ 0) && decide (c.billed_amount ≠ 0) &&
    decide (c.paid_amount > c.billed_amount))

/-- Derived property `Claim.underpayment_amount`. -/
def underpayment_amount (c : ClaimRec) : ℚ :=
  c.billed_amount - c.paid_amount

/-- Derived property `Claim.payment_percentage`. -/
def payment_percentage (c : ClaimRec) : ℚ :=
  if c.billed_amount > 0 then c.paid_amount / c.billed_amount * 100 else 0

/-- `Claim.is_underpaid`. -/
def is_underpaid (c : ClaimRec) : Bool :=
  decide (payment_percentage c < 80)

/-- `Claim.get_underpayment_severity`. -/
def get_underpayment_severity (c : ClaimRec) : String :=
  let percentage := payment_percentage c
  if percentage ≥ 95 then "none"
  else if percentage ≥ 80 then "low"
  else if percentage ≥ 50 then "medium"
  else "high"

/-! ## Stage-one row parsing shared by both loaders

Both loaders read `discharge_date` (parsing it with `strptime`) and the six
string columns; a `KeyError` or a date `ValueError` is caught in both and
skips the row.  The two loaders diverge on the amounts: the CLI parses them
with `Decimal(...)` under its own handler (`InvalidOperation` skips the
row), while the web loader hands the raw strings to the model field, whose
coercion failure surfaces as an uncaught `ValidationError`. -/

structure ClaimRowStrs where
  id : String
  patient_name : String
  billed_s : String
  paid_s : String
  status : String
  insurer_name : String
  date : Nat × Nat × Nat
  deriving Repr, DecidableEq

def parseClaimRowStrs (r : RawRow) : Option ClaimRowStrs := do
  let ds ← getCol r "discharge_date"
  let date ← parseDate ds
  let i ← getCol r "id"
  let pn ← getCol r "patient_name"
  let bs ← getCol r "billed_amount"
  let ps ← getCol r "paid_amount"
  let st ← getCol r "status"
  let ins ← getCol r "insurer_name"
  pure ⟨i, pn, bs, ps, st, ins, date⟩

def coerceAmounts (p : ClaimRowStrs) : Option ClaimRec := do
  let b ← parseDecimal p.billed_s
  let pa ← parseDecimal p.paid_s
  pure ⟨p.id, p.patient_name, b, pa, p.status, p.insurer_name, p.date⟩

/-- Full row parse as the CLI performs it: every failure here
(`KeyError`, `ValueError`, `InvalidOperation`) is caught and skips the row. -/
def parseClaimRowCLI (r : RawRow) : Option ClaimRec :=
  (parseClaimRowStrs r).bind coerceAmounts

/-! ## The claim store and `update_or_create` -/

/-- `Claim.objects.update_or_create(claim_id=..., defaults=...)`: update the
existing row in place, or append a new one; the boolean is Django's
`created` flag. -/
def update_or_create_claim (s : List ClaimRec) (c : ClaimRec) :
    List ClaimRec × Bool :=
  if s.any (fun x => x.claim_id == c.claim_id) then
    (s.map (fun x => if x.claim_id == c.claim_id then c else x), false)
  else
    (s ++ [c], true)

/-- The stored claim identifiers, in storage order. -/
def ids (s : List ClaimRec) : List String := s.map (·.claim_id)

/-- `Claim.objects.get(claim_id=k)` under the unique constraint. -/
def lookupClaim (s : List ClaimRec) (k : String) : Option ClaimRec :=
  s.find? (fun c => c.claim_id == k)

/-- The claim identifiers of the rows a CLI batch accepts (rows that parse
and pass model validation); used to reason about which store keys a load can
touch. -/
def writtenKeys (rows : List RawRow) : List String :=
  rows.filterMap (fun r =>
    match parseClaimRowCLI r with
    | some c => if claimValid c then some c.claim_id else none
    | none => none)

/-! ## Remaining stored models -/

structure DetailRec where
  claim_id : String
  denial_reason : String
  cpt_codes : String
  deriving Repr, DecidableEq

/-- `ClaimDetail.objects.update_or_create(claim=..., defaults=...)`, keyed by
the owning claim (identified by its unique `claim_id`).  `ClaimDetail` has no
custom `save`, so no model validation runs here. -/
def update_or_create_detail (ds : List DetailRec) (k dr cc : String) :
    List DetailRec × Bool :=
  if ds.any (fun d => d.claim_id == k) then
    (ds.map (fun d => if d.claim_id == k then ⟨k, dr, cc⟩ else d), false)
  else
    (ds ++ [⟨k, dr, cc⟩], true)

structure DataUploadRec where
  upload_type : String
  file_name : String
  records_processed : Nat
  notes : String
  deriving Repr, DecidableEq

structure DB where
  claims : List ClaimRec
  details : List DetailRec
  uploads : List DataUploadRec
  deriving Repr, DecidableEq

/-! ## Reading a delimited file into rows -/

/-- Split one line on the delimiter (fields in the ingested data are
unquoted, so the `csv` module's splitting is plain splitting). -/
def splitLine (d : Char) (s : String) : List String :=
  (splitOnChar d s.toList).map String.mk

/-- `csv.DictReader(..., delimiter=d)`: the first line gives the column
names, every further non-blank line is zipped against them. -/
def readRows (d : Char) (lines : List String) : List RawRow :=
  match lines with
  | [] => []
  | h :: ls =>
      let ks := splitLine d h
      ls.filterMap (fun l =>
        if l == "" then none else some (ks.zip (splitLine d l)))

/-! ## CLI loader (`management/commands/load_claims_data.py`)

`_load_claims` catches `(ValueError, InvalidOperation, KeyError)` around the
row body and skips the row.  `Claim.save` runs `full_clean`, whose
`ValidationError` is in none of the loader's handlers, so an invalid row
escapes `_load_claims`; `handle` catches it as a generic `Exception`, the
`transaction.atomic()` block rolls back, and a `CommandError` is raised. -/

namespace Cli

/-- `Command._load_claims`: returns the claim store and the count, which is
incremented only when `update_or_create` reports a creation.  The error
branch is the uncaught `ValidationError` of an invalid row. -/
def load_claims : List Erisa.RawRow → List Erisa.ClaimRec →
    Except String (List Erisa.ClaimRec × Nat)
  | [], s => .ok (s, 0)
  | r :: rs, s =>
      match Erisa.parseClaimRowCLI r with
      | none => load_claims rs s
      | some c =>
          if Erisa.claimValid c then
            let step := Erisa.update_or_create_claim s c
            match load_claims rs step.1 with
            | .ok (t, n) => .ok (t, n + (if step.2 then 1 else 0))
            | .error e => .error e
          else
            .error "ValidationError"

/-- `Command._load_claim_details`: the `claim_id` `KeyError` is caught and
skips the row; a missing owning claim (`Claim.DoesNotExist`) skips the row;
`denial_reason` and `cpt_codes` use `row.get(..., '')`.  Only creations are
counted.  Nothing in this loader raises past a row. -/
def load_claim_details : List Erisa.RawRow → List Erisa.ClaimRec →
    List Erisa.DetailRec → List Erisa.DetailRec × Nat
  | [], _, ds => (ds, 0)
  | r :: rs, cs, ds =>
      match Erisa.getCol r "claim_id" with
      | none => load_claim_details rs cs ds
      | some k =>
          match Erisa.lookupClaim cs k with
          | none => load_claim_details rs cs ds
          | some _ =>
              let dr := (Erisa.getCol r "denial_reason").getD ""
              let cc := (Erisa.getCol r "cpt_codes").getD ""
              let step := Erisa.update_or_create_detail ds k dr cc
              let rest := load_claim_details rs cs step.1
              (rest.1, rest.2 + (if step.2 then 1 else 0))

/-- The rows the CLI reads from a file: the delimiter is hard-coded to
`'|'` (`csv.DictReader(csvfile, delimiter='|')`), whatever the header is. -/
def readClaimRows (lines : List String) : List Erisa.RawRow :=
  Erisa.readRows '|' lines

/-- The body of `Command.handle` inside `transaction.atomic()`: optional
purge, claims load, details load, `DataUpload` write. -/
def handle_body (mode : String) (claimsLines detailsLines : List String)
    (fname : String) (db : Erisa.DB) : Except String Erisa.DB :=
  let db0 := if mode == "overwrite" then
    { db with claims := [], details := [] } else db
  match load_claims (readClaimRows claimsLines) db0.claims with
  | .error e => .error e
  | .ok (cs, cn) =>
      let dres := load_claim_details (readClaimRows detailsLines) cs db0.details
      let up : Erisa.DataUploadRec :=
        ⟨if mode == "overwrite" then "overwrite" else "append", fname, cn,
         "Claims: " ++ Nat.repr cn ++ ", Details: " ++ Nat.repr dres.2⟩
      .ok ⟨cs, dres.1, db0.uploads ++ [up]⟩

/-- `Command.handle`: on any exception inside the transaction the whole
batch is rolled back (the store stays as it was) and a `CommandError`
carries the message. -/
def handle (mode : String) (claimsLines detailsLines : List String)
    (fname : String) (db : Erisa.DB) : Erisa.DB × Option String :=
  match handle_body mode claimsLines detailsLines fname db with
  | .ok db1 => (db1, none)
  | .error e => (db, some e)

end Cli

/-! ## Web upload loader (`views.py`, `DataUploadView`)

`_process_claims_file` catches only `(ValueError, KeyError)` around the row
body, so a date `ValueError` or a missing column skips the row, but the
`ValidationError` raised by `full_clean` — including the coercion failure of
a non-numeric amount string — escapes the loop; `post` catches it as a
generic `Exception` and shows an error message.  There is no transaction
around any of it: every ORM write before the failure stays committed. -/

namespace Web

/-- `DataUploadView._detect_delimiter`: `'|' if '|' in first_line else ','`. -/
def detect_delimiter (first_line : String) : Char :=
  if first_line.toList.contains '|' then '|' else ','

/-- The per-row loop of `_process_claims_file` over already-split rows:
the store and either the processed count (every accepted row, created or
updated) or the uncaught error. -/
def upsert_claim_rows : List Erisa.RawRow → List Erisa.ClaimRec →
    List Erisa.ClaimRec × Except String Nat
  | [], s => (s, .ok 0)
  | r :: rs, s =>
      match Erisa.parseClaimRowStrs r with
      | none => upsert_claim_rows rs s
      | some p =>
          match Erisa.coerceAmounts p with
          | none => (s, .error "ValidationError")
          | some c =>
              if Erisa.claimValid c then
                let step := Erisa.update_or_create_claim s c
                match upsert_claim_rows rs step.1 with
                | (t, .ok n) => (t, .ok (n + 1))
                | (t, .error e) => (t, .error e)
              else
                (s, .error "ValidationError")

/-- `_process_claims_file`: purge first when the mode is `overwrite`, return
0 on an empty file, otherwise detect the delimiter from the first line and
process every row. -/
def process_claims_file (mode : String) (lines : List String)
    (s : List Erisa.ClaimRec) : List Erisa.ClaimRec × Except String Nat :=
  let s0 := if mode == "overwrite" then [] else s
  match lines with
  | [] => (s0, .ok 0)
  | h :: _ => upsert_claim_rows (Erisa.readRows (detect_delimiter h) lines) s0

/-- The per-row loop of `_process_details_file`: `Claim.DoesNotExist` and
`KeyError` are caught and skip the row; every processed row is counted. -/
def upsert_detail_rows : List Erisa.RawRow → List Erisa.ClaimRec →
    List Erisa.DetailRec → List Erisa.DetailRec × Nat
  | [], _, ds => (ds, 0)
  | r :: rs, cs, ds =>
      match Erisa.getCol r "claim_id" with
      | none => upsert_detail_rows rs cs ds
      | some k =>
          match Erisa.lookupClaim cs k with
          | none => upsert_detail_rows rs cs ds
          | some _ =>
              let dr := (Erisa.getCol r "denial_reason").getD ""
              let cc := (Erisa.getCol r "cpt_codes").getD ""
              let step := Erisa.update_or_create_detail ds k dr cc
              let rest := upsert_detail_rows rs cs step.1
              (rest.1, rest.2 + 1)

/-- `_process_details_file`. -/
def process_details_file (lines : List String) (cs : List Erisa.ClaimRec)
    (ds : List Erisa.DetailRec) : List Erisa.DetailRec × Nat :=
  match lines with
  | [] => (ds, 0)
  | h :: _ => upsert_detail_rows (Erisa.readRows (detect_delimiter h) lines) cs ds

/-- `DataUploadView.post`, in autocommit mode: the `overwrite` purge of
`Claim` cascades to `ClaimDetail`; a claims-phase error is caught by the
generic handler, leaving everything already written committed; on success a
`DataUpload` row records the claims count. -/
def post (mode : String) (claimsLines detailsLines : List String)
    (fname : String) (db : Erisa.DB) : Erisa.DB × Option String :=
  let db0 := if mode == "overwrite" then { db with details := [] } else db
  match process_claims_file mode claimsLines db0.claims with
  | (cs, .error e) => ({ db0 with claims := cs }, some e)
  | (cs, .ok cn) =>
      let dres := process_details_file detailsLines cs db0.details
      let up : Erisa.DataUploadRec :=
        ⟨mode, fname, cn,
         "Claims: " ++ Nat.repr cn ++ ", Details: " ++ Nat.repr dres.2⟩
      (⟨cs, dres.1, db0.uploads ++ [up]⟩, none)

end Web

/-! ## Dashboard aggregates (`DashboardView.get_context_data`) -/

/-- `Claim.objects.aggregate(Sum('billed_amount'))`, with the view's
`or 0` for the empty set. -/
def total_billed (s : List ClaimRec) : ℚ :=
  (s.map (·.billed_amount)).sum

def total_paid (s : List ClaimRec) : ℚ :=
  (s.map (·.paid_amount)).sum

/-- The view computes `total_underpayment = total_billed - total_paid`. -/
def total_underpayment (s : List ClaimRec) : ℚ :=
  total_billed s - total_paid s

/-! ## Flags (`ClaimFlag`, `add_flag_htmx`) -/

structure ClaimFlagRec where
  claim_id : String
  user : String
  flag_type : String
  reason : String
  is_active : Bool
  deriving Repr, DecidableEq

/-- The `unique_together` key of `ClaimFlag`. -/
def flagKey (f : ClaimFlagRec) : String × String × String :=
  (f.claim_id, f.user, f.flag_type)

/-- The body of `add_flag_htmx`: `get_or_create` on the
`(claim, user, flag_type)` triple with defaults `reason`/`is_active=True`;
when the flag already exists it is reactivated and its reason replaced. -/
def add_flag (flags : List ClaimFlagRec) (cid user ftype reason : String) :
    List ClaimFlagRec :=
  match flags.find? (fun f =>
      f.claim_id == cid && f.user == user && f.flag_type == ftype) with
  | some _ =>
      flags.map (fun f =>
        if f.claim_id == cid && f.user == user && f.flag_type == ftype then
          { f with is_active := true, reason := reason }
        else f)
  | none => flags ++ [⟨cid, user, ftype, reason, true⟩]

/-- `ClaimFlag.objects.get(claim=..., user=..., flag_type=...)` under the
`unique_together` constraint. -/
def lookupFlag (flags : List ClaimFlagRec) (cid user ftype : String) :
    Option ClaimFlagRec :=
  flags.find? (fun f =>
    f.claim_id == cid && f.user == user && f.flag_type == ftype)

/-! ## Concrete fixtures used by the verification theorems -/

/-- A well-formed claims row (the worked example of the data model). -/
def rowGood : RawRow :=
  [("id", "C1"), ("patient_name", "Jane Doe"), ("billed_amount", "100.00"),
   ("paid_amount", "60.00"), ("status", "Denied"), ("insurer_name", "Acme"),
   ("discharge_date", "2024-01-01")]

/-- The claim `rowGood` parses to. -/
def claimGood : ClaimRec :=
  ⟨"C1", "Jane Doe", 100, 60, "Denied", "Acme", (2024, 1, 1)⟩

/-- A second row for the same `claim_id` with different amounts. -/
def rowGoodV2 : RawRow :=
  [("id", "C1"), ("patient_name", "Jane Doe"), ("billed_amount", "100.00"),
   ("paid_amount", "90.00"), ("status", "Paid"), ("insurer_name", "Acme"),
   ("discharge_date", "2024-01-01")]

/-- The claim `rowGoodV2` parses to. -/
def claimGoodV2 : ClaimRec :=
  ⟨"C1", "Jane Doe", 100, 90, "Paid", "Acme", (2024, 1, 1)⟩

/-- A row violating the paid-versus-billed invariant with a nonzero
billed amount. -/
def rowBad : RawRow :=
  [("id", "C2"), ("patient_name", "John"), ("billed_amount", "50.00"),
   ("paid_amount", "80.00"), ("status", "Paid"), ("insurer_name", "Acme"),
   ("discharge_date", "2024-01-01")]

/-- A row with zero billed and nonzero paid: paid exceeds billed, but the
truthiness guard in `Claim.clean` skips the comparison. -/
def rowZeroBilled : RawRow :=
  [("id", "Z1"), ("patient_name", "Pat"), ("billed_amount", "0.00"),
   ("paid_amount", "5.00"), ("status", "Denied"), ("insurer_name", "Acme"),
   ("discharge_date", "2024-01-01")]

/-- The claim `rowZeroBilled` parses to. -/
def claimZero : ClaimRec :=
  ⟨"Z1", "Pat", 0, 5, "Denied", "Acme", (2024, 1, 1)⟩

/-- A row whose discharge date does not parse: a recoverable row-level
failure in every loader. -/
def rowBadDate : RawRow :=
  [("id", "D1"), ("patient_name", "Dana"), ("billed_amount", "10.00"),
   ("paid_amount", "10.00"), ("status", "Paid"), ("insurer_name", "Acme"),
   ("discharge_date", "not-a-date")]

/-- A details row whose claim identifier matches no claim. -/
def detailRowOrphan : RawRow :=
  [("claim_id", "CX"), ("denial_reason", "missing auth"),
   ("cpt_codes", "99213,99214")]

def commaHeader : String :=
  "id,patient_name,billed_amount,paid_amount,status,insurer_name,discharge_date"

def commaRowGood : String := "C1,Jane Doe,100.00,60.00,Denied,Acme,2024-01-01"

/-- A comma-delimited claims file (no pipe anywhere in it). -/
def commaLines : List String := [commaHeader, commaRowGood]

def pipeHeader : String :=
  "id|patient_name|billed_amount|paid_amount|status|insurer_name|discharge_date"

def pipeRowGood : String := "C1|Jane Doe|100.00|60.00|Denied|Acme|2024-01-01"

def pipeRowBad : String := "C2|John|50.00|80.00|Paid|Acme|2024-01-01"

/-- The empty database. -/
def emptyDB : DB := ⟨[], [], []⟩

/-- A pipe-delimited data line whose discharge date does not parse. -/
def pipeRowBadDate : String := "D1|Dana|10.00|10.00|Paid|Acme|not-a-date"

/-- A claim present before an import starts. -/
def claimOld : ClaimRec := ⟨"OLD", "Old Name", 10, 10, "Paid", "Acme", (2020, 1, 1)⟩

/-- A database holding `claimOld`, used as the prior state of imports. -/
def dbOld : DB := ⟨[claimOld], [], []⟩

/-- An existing, deactivated flag for the triple (C1, alice, review). -/
def flagFix : ClaimFlagRec := ⟨"C1", "alice", "review", "needs review", false⟩

end Erisa

deriving instance DecidableEq for Except

open Erisa




/-! # Verification theorems -/

set_option maxRecDepth 10000 in
/-- **C1.**  The claim states that a row whose paid amount exceeds its billed
amount is rejected as a row-level, non-fatal validation error, with the batch
continuing.  The code does not do this: `Claim.clean`'s `ValidationError` is
caught by neither loader's row handler, so such a row aborts the whole batch
(first two conjuncts: the following valid row is never loaded), and when the
billed amount is zero the truthiness guard in `Claim.clean` skips the check
entirely and the violating row is persisted (last two conjuncts). -/
theorem paid_gt_billed_is_fatal_or_persisted :
    Erisa.Cli.load_claims [rowBad, rowGood] [] = .error "ValidationError" ∧
    Erisa.Web.upsert_claim_rows [rowBad, rowGood] [] =
      ([], .error "ValidationError") ∧
    Erisa.Cli.load_claims [rowZeroBilled] [] = .ok ([claimZero], 1) ∧
    claimZero.paid_amount > claimZero.billed_amount := by
  refine ⟨?_, ?_, ?_, ?_⟩ <;> with_unfolding_all decide

set_option maxRecDepth 10000 in
/-- **C3** (counterexample).  The claim states that in every load path the
delimiter is decided from the header line (pipe if it contains `'|'`, else
comma).  The command-line loader instead always uses pipe: on a fully
comma-delimited file whose header contains no pipe, the web path detects a
comma and loads the row, while the CLI path reads different rows than a
comma split would give and loads nothing. -/
theorem cli_delimiter_not_from_header :
    Erisa.Web.detect_delimiter commaHeader = ',' ∧
    Erisa.Cli.readClaimRows commaLines ≠ Erisa.readRows ',' commaLines ∧
    (Erisa.Cli.handle "overwrite" commaLines [] "f" emptyDB).1.claims = [] ∧
    (Erisa.Web.post "overwrite" commaLines [] "f" emptyDB).1.claims =
      [claimGood] := by
  refine ⟨?_, ?_, ?_, ?_⟩ <;> with_unfolding_all decide

/-- **C3** (amended).  The web-upload path decides the field delimiter from
the header line alone — pipe exactly when the header contains a `'|'`
character, comma otherwise — while the command-line path always splits on
pipe regardless of the header. -/
theorem delimiter_web_detected_cli_fixed :
    (∀ line : String,
      (Erisa.Web.detect_delimiter line = '|' ↔ line.toList.contains '|' = true) ∧
      (Erisa.Web.detect_delimiter line = ',' ↔
        line.toList.contains '|' = false)) ∧
    (∀ lines : List String,
      Erisa.Cli.readClaimRows lines = Erisa.readRows '|' lines) := by
  constructor
  · intro line
    unfold Erisa.Web.detect_delimiter
    by_cases h : line.toList.contains '|' <;> simp [h]
  · intro lines
    rfl

/-- **C6.**  A details row whose claim identifier matches no existing claim
is skipped by both detail loaders: no `ClaimDetail` is created, the failure
is non-fatal, and processing continues exactly as if the row were absent. -/
theorem orphan_detail_row_skipped (r : Erisa.RawRow) (rs : List Erisa.RawRow)
    (cs : List Erisa.ClaimRec) (ds : List Erisa.DetailRec) (k : String)
    (hk : Erisa.getCol r "claim_id" = some k)
    (habs : Erisa.lookupClaim cs k = none) :
    Erisa.Cli.load_claim_details (r :: rs) cs ds =
      Erisa.Cli.load_claim_details rs cs ds ∧
    Erisa.Web.upsert_detail_rows (r :: rs) cs ds =
      Erisa.Web.upsert_detail_rows rs cs ds := by
  constructor
  · simp only [Erisa.Cli.load_claim_details, hk, habs]
  · simp only [Erisa.Web.upsert_detail_rows, hk, habs]

/-- **C6** (witness). -/
theorem orphan_detail_row_skipped_witness :
    Erisa.Cli.load_claim_details [detailRowOrphan] [] [] = ([], 0) ∧
    Erisa.Web.upsert_detail_rows [detailRowOrphan] [] [] = ([], 0) := by
  have h := orphan_detail_row_skipped detailRowOrphan [] [] [] "CX"
    (by with_unfolding_all decide) (by with_unfolding_all decide)
  exact ⟨h.1.trans rfl, h.2.trans rfl⟩

/-- **C8.**  The dashboard aggregates satisfy
`total_billed − total_paid = total_underpayment` exactly, for every stored
claim set; moreover that quantity is exactly the sum of the per-claim
underpayment amounts. -/
theorem dashboard_underpayment_identity (s : List Erisa.ClaimRec) :
    Erisa.total_billed s - Erisa.total_paid s = Erisa.total_underpayment s ∧
    Erisa.total_underpayment s = (s.map Erisa.underpayment_amount).sum := by
  refine ⟨rfl, ?_⟩
  unfold Erisa.total_underpayment Erisa.total_billed Erisa.total_paid
    Erisa.underpayment_amount
  induction s with
  | nil => simp
  | cons c cs ih =>
      simp only [List.map_cons, List.sum_cons]
      rw [← ih]
      ring

/-- **C7.**  The derived payment percentage is paid/billed×100 when billed is
positive and 0 when billed is 0; the severity tier is exactly the interval
classification the spec states (`none` ≥ 95, `low` in [80, 95), `medium` in
[50, 80), `high` below 50); and on the worked example (billed 100.00, paid
60.00) the percentage is 60 and the severity `medium`. -/
theorem payment_percentage_severity_spec (c : Erisa.ClaimRec) :
    (0 < c.billed_amount →
      Erisa.payment_percentage c = c.paid_amount / c.billed_amount * 100) ∧
    (c.billed_amount = 0 → Erisa.payment_percentage c = 0) ∧
    (Erisa.get_underpayment_severity c = "none" ↔
      95 ≤ Erisa.payment_percentage c) ∧
    (Erisa.get_underpayment_severity c = "low" ↔
      80 ≤ Erisa.payment_percentage c ∧ Erisa.payment_percentage c < 95) ∧
    (Erisa.get_underpayment_severity c = "medium" ↔
      50 ≤ Erisa.payment_percentage c ∧ Erisa.payment_percentage c < 80) ∧
    (Erisa.get_underpayment_severity c = "high" ↔
      Erisa.payment_percentage c < 50) ∧
    Erisa.payment_percentage claimGood = 60 ∧
    Erisa.get_underpayment_severity claimGood = "medium" := by
  have hg : Erisa.payment_percentage claimGood = 60 := by
    unfold Erisa.payment_percentage claimGood
    norm_num
  have hsev : Erisa.get_underpayment_severity c =
      if 95 ≤ Erisa.payment_percentage c then "none"
      else if 80 ≤ Erisa.payment_percentage c then "low"
      else if 50 ≤ Erisa.payment_percentage c then "medium"
      else "high" := rfl
  refine ⟨?_, ?_, ?_, ?_, ?_, ?_, hg, ?_⟩
  · intro h
    unfold Erisa.payment_percentage
    rw [if_pos h]
  · intro h
    unfold Erisa.payment_percentage
    rw [if_neg (by rw [h]; exact lt_irrefl 0)]
  · rw [hsev]
    split_ifs with h1 h2 h3 <;>
      constructor <;> intro hx <;>
      first
        | assumption
        | exact absurd hx (by decide)
        | exact absurd hx (by intro hc; exact h1 hc)
        | rfl
  · rw [hsev]
    split_ifs with h1 h2 h3 <;> constructor <;> intro hx
    · exact absurd hx (by decide)
    · linarith [hx.2]
    · exact ⟨h2, lt_of_not_le h1⟩
    · rfl
    · exact absurd hx (by decide)
    · exact absurd hx.1 h2
    · exact absurd hx (by decide)
    · exact absurd hx.1 h2
  · rw [hsev]
    split_ifs with h1 h2 h3 <;> constructor <;> intro hx
    · exact absurd hx (by decide)
    · linarith [hx.2]
    · exact absurd hx (by decide)
    · linarith [hx.2]
    · exact ⟨h3, lt_of_not_le h2⟩
    · rfl
    · exact absurd hx (by decide)
    · exact absurd hx.1 h3
  · rw [hsev]
    split_ifs with h1 h2 h3 <;> constructor <;> intro hx
    · exact absurd hx (by decide)
    · linarith
    · exact absurd hx (by decide)
    · linarith
    · exact absurd hx (by decide)
    · linarith
    · exact lt_of_not_le h3
    · rfl
  · rw [show Erisa.get_underpayment_severity claimGood =
      if 95 ≤ Erisa.payment_percentage claimGood then "none"
      else if 80 ≤ Erisa.payment_percentage claimGood then "low"
      else if 50 ≤ Erisa.payment_percentage claimGood then "medium"
      else "high" from rfl, hg]
    norm_num

/-- **C7** (witness): the theorem applied at the worked example. -/
theorem payment_percentage_severity_spec_witness :
    Erisa.payment_percentage claimGood = 60 ∧
    Erisa.get_underpayment_severity claimGood = "medium" ∧
    0 < claimGood.billed_amount ∧
    Erisa.payment_percentage claimGood =
      claimGood.paid_amount / claimGood.billed_amount * 100 := by
  have h := payment_percentage_severity_spec claimGood
  have hb : 0 < claimGood.billed_amount := by norm_num [claimGood]
  exact ⟨h.2.2.2.2.2.2.1, h.2.2.2.2.2.2.2, hb, h.1 hb⟩

/-- Helper for C9: after the reactivating map, the flag found for the triple
is the old one with `is_active` set and the reason replaced. -/
theorem find_flag_after_update (cid user ftype reason : String) :
    ∀ (fs : List Erisa.ClaimFlagRec) (f₀ : Erisa.ClaimFlagRec),
    fs.find? (fun f =>
      f.claim_id == cid && f.user == user && f.flag_type == ftype) = some f₀ →
    (fs.map (fun f =>
      if f.claim_id == cid && f.user == user && f.flag_type == ftype then
        { f with is_active := true, reason := reason } else f)).find?
      (fun f => f.claim_id == cid && f.user == user && f.flag_type == ftype) =
    some { f₀ with is_active := true, reason := reason }
  | [], f₀, hf => by simp at hf
  | f :: fs, f₀, hf => by
      by_cases hp : (f.claim_id == cid && f.user == user &&
          f.flag_type == ftype) = true
      · simp only [List.find?_cons, hp] at hf
        have hff : f = f₀ := by injection hf
        subst hff
        have hps := hp
        simp only [Bool.and_eq_true, beq_iff_eq] at hps
        obtain ⟨⟨h1, h2⟩, h3⟩ := hps
        simp [List.find?_cons, h1, h2, h3]
      · simp only [List.find?_cons, hp] at hf
        simp only [List.map_cons, List.find?_cons]
        simpa [hp] using find_flag_after_update cid user ftype reason fs f₀ hf

/-- **C9.**  At most one `ClaimFlag` per (claim, user, flag type) triple:
`add_flag` preserves distinctness of the `unique_together` keys, and when a
flag for the triple already exists, re-adding creates nothing new (the list
length is unchanged) and instead reactivates that flag and replaces its
reason. -/
theorem flag_unique_and_reactivates (flags : List Erisa.ClaimFlagRec)
    (cid user ftype reason : String) :
    ((flags.map Erisa.flagKey).Nodup →
      ((Erisa.add_flag flags cid user ftype reason).map Erisa.flagKey).Nodup) ∧
    (∀ f₀, Erisa.lookupFlag flags cid user ftype = some f₀ →
      (Erisa.add_flag flags cid user ftype reason).length = flags.length ∧
      Erisa.lookupFlag (Erisa.add_flag flags cid user ftype reason) cid user
          ftype = some { f₀ with is_active := true, reason := reason }) := by
  have hkeys : ∀ f : Erisa.ClaimFlagRec,
      Erisa.flagKey (if f.claim_id == cid && f.user == user &&
          f.flag_type == ftype then
        { f with is_active := true, reason := reason } else f) =
      Erisa.flagKey f := by
    intro f
    by_cases h : f.claim_id == cid && f.user == user && f.flag_type == ftype
    · rw [if_pos h]; rfl
    · rw [if_neg h]
  constructor
  · intro hnd
    unfold Erisa.add_flag
    cases hf : flags.find? (fun f =>
        f.claim_id == cid && f.user == user && f.flag_type == ftype) with
    | some f₀ =>
        rw [List.map_map]
        have : flags.map (Erisa.flagKey ∘ fun f =>
            if f.claim_id == cid && f.user == user && f.flag_type == ftype then
              { f with is_active := true, reason := reason } else f) =
            flags.map Erisa.flagKey :=
          List.map_congr_left (fun f _ => hkeys f)
        rw [this]
        exact hnd
    | none =>
        simp only [List.map_append, List.map_cons, List.map_nil]
        rw [List.nodup_append]
        refine ⟨hnd, List.nodup_singleton _, ?_⟩
        rw [List.disjoint_singleton]
        intro hmem
        rcases List.mem_map.mp hmem with ⟨f, hfmem, hfkey⟩
        have hnp := List.find?_eq_none.mp hf f hfmem
        apply hnp
        have h1 : f.claim_id = cid := congrArg (fun p => p.1) hfkey
        have h2 : f.user = user := congrArg (fun p => p.2.1) hfkey
        have h3 : f.flag_type = ftype := congrArg (fun p => p.2.2) hfkey
        simp [h1, h2, h3]
  · intro f₀ hf₀
    have hf : flags.find? (fun f =>
        f.claim_id == cid && f.user == user && f.flag_type == ftype) =
        some f₀ := hf₀
    constructor
    · unfold Erisa.add_flag
      rw [hf, List.length_map]
    · unfold Erisa.add_flag Erisa.lookupFlag
      rw [hf]
      exact find_flag_after_update cid user ftype reason flags f₀ hf

/-- **C9** (witness): re-adding a `review` flag that `alice` already holds on
claim `C1` keeps one record, reactivates it, and replaces the reason. -/
theorem flag_unique_and_reactivates_witness :
    ((Erisa.add_flag [flagFix] "C1" "alice" "review" "new reason").map
      Erisa.flagKey).Nodup ∧
    (Erisa.add_flag [flagFix] "C1" "alice" "review" "new reason").length = 1 ∧
    Erisa.lookupFlag (Erisa.add_flag [flagFix] "C1" "alice" "review"
      "new reason") "C1" "alice" "review" =
      some ⟨"C1", "alice", "review", "new reason", true⟩ := by
  have h := flag_unique_and_reactivates [flagFix] "C1" "alice" "review"
    "new reason"
  have h2 := h.2 flagFix (by decide)
  exact ⟨h.1 (by decide), h2.1, h2.2⟩

/-! ### Store lemmas shared by the idempotence and counting claims -/

theorem mem_ids_any (s : List ClaimRec) (k : String) :
    s.any (fun x => x.claim_id == k) = true ↔ k ∈ ids s := by
  simp [ids, List.any_eq_true, List.mem_map]

theorem ids_update (s : List ClaimRec) (c : ClaimRec) :
    ids (update_or_create_claim s c).1 =
      if c.claim_id ∈ ids s then ids s else ids s ++ [c.claim_id] := by
  unfold update_or_create_claim
  by_cases h : s.any (fun x => x.claim_id == c.claim_id) = true
  · rw [if_pos h, if_pos ((mem_ids_any s c.claim_id).mp h)]
    unfold ids
    rw [List.map_map]
    apply List.map_congr_left
    intro x _
    by_cases hxc : (x.claim_id == c.claim_id) = true
    · simp only [Function.comp_apply, if_pos hxc]
      exact (beq_iff_eq.mp hxc).symm
    · simp only [Function.comp_apply, if_neg hxc]
  · rw [if_neg h, if_neg (fun hm => h ((mem_ids_any s c.claim_id).mpr hm))]
    simp [ids]

theorem uoc_created (s : List ClaimRec) (c : ClaimRec) :
    (update_or_create_claim s c).2 =
      !(s.any (fun x => x.claim_id == c.claim_id)) := by
  unfold update_or_create_claim
  by_cases h : s.any (fun x => x.claim_id == c.claim_id) = true
  · rw [if_pos h, h]; rfl
  · rw [if_neg h]
    have hb : s.any (fun x => x.claim_id == c.claim_id) = false := by
      cases hx : s.any (fun x => x.claim_id == c.claim_id)
      · rfl
      · exact absurd hx h
    rw [hb]; rfl

theorem mem_ids_update (s : List ClaimRec) (c : ClaimRec) (k : String)
    (hk : k ∈ ids s) : k ∈ ids (update_or_create_claim s c).1 := by
  rw [ids_update]
  split_ifs <;> simp [hk]

theorem self_mem_ids_update (s : List ClaimRec) (c : ClaimRec) :
    c.claim_id ∈ ids (update_or_create_claim s c).1 := by
  rw [ids_update]
  split_ifs with h
  · exact h
  · simp

theorem nodup_ids_update (s : List ClaimRec) (c : ClaimRec)
    (h : (ids s).Nodup) : (ids (update_or_create_claim s c).1).Nodup := by
  rw [ids_update]
  split_ifs with hm
  · exact h
  · simp [List.nodup_append, h, hm]

theorem lookup_eq_none_iff (s : List ClaimRec) (k : String) :
    lookupClaim s k = none ↔ k ∉ ids s := by
  simp [lookupClaim, List.find?_eq_none, ids, List.mem_map]

theorem uoc_fst_update (s : List ClaimRec) (c : ClaimRec)
    (h : s.any (fun x => x.claim_id == c.claim_id) = true) :
    (update_or_create_claim s c).1 =
      s.map (fun x => if x.claim_id == c.claim_id then c else x) := by
  unfold update_or_create_claim
  rw [if_pos h]

theorem uoc_fst_create (s : List ClaimRec) (c : ClaimRec)
    (h : s.any (fun x => x.claim_id == c.claim_id) = false) :
    (update_or_create_claim s c).1 = s ++ [c] := by
  unfold update_or_create_claim
  rw [if_neg (by rw [h]; exact Bool.false_ne_true)]

theorem find_map_update_self : ∀ (xs : List ClaimRec) (c : ClaimRec),
    xs.any (fun x => x.claim_id == c.claim_id) = true →
    (xs.map (fun x => if x.claim_id == c.claim_id then c else x)).find?
      (fun y => y.claim_id == c.claim_id) = some c
  | [], c, h => by simp at h
  | x :: xs, c, h => by
      cases hx : x.claim_id == c.claim_id with
      | true =>
          rw [List.map_cons, if_pos hx, List.find?_cons]
          simp only [beq_self_eq_true]
      | false =>
          have hneg : ¬(x.claim_id == c.claim_id) = true := by
            rw [hx]; exact Bool.false_ne_true
          rw [List.map_cons, if_neg hneg, List.find?_cons]
          simp only [hx]
          exact find_map_update_self xs c (by
            rw [List.any_cons, hx, Bool.false_or] at h
            exact h)

theorem find_map_update_other : ∀ (xs : List ClaimRec) (c : ClaimRec)
    (k : String), k ≠ c.claim_id →
    (xs.map (fun x => if x.claim_id == c.claim_id then c else x)).find?
      (fun y => y.claim_id == k) =
    xs.find? (fun y => y.claim_id == k)
  | [], _, _, _ => rfl
  | x :: xs, c, k, hk => by
      have ih := find_map_update_other xs c k hk
      have hck : (c.claim_id == k) = false :=
        beq_eq_false_iff_ne.mpr (Ne.symm hk)
      cases hx : x.claim_id == c.claim_id with
      | true =>
          have hxk : (x.claim_id == k) = false := by
            rw [beq_iff_eq] at hx
            rw [hx]
            exact hck
          rw [List.map_cons, if_pos hx, List.find?_cons, List.find?_cons]
          simp only [hck, hxk]
          exact ih
      | false =>
          have hneg : ¬(x.claim_id == c.claim_id) = true := by
            rw [hx]; exact Bool.false_ne_true
          rw [List.map_cons, if_neg hneg, List.find?_cons, List.find?_cons]
          cases hxk : x.claim_id == k with
          | true => simp only [hxk]
          | false =>
              simp only [hxk]
              exact ih

theorem lookup_update_self (s : List ClaimRec) (c : ClaimRec) :
    lookupClaim (update_or_create_claim s c).1 c.claim_id = some c := by
  unfold lookupClaim
  cases ha : s.any (fun x => x.claim_id == c.claim_id) with
  | true =>
      rw [uoc_fst_update s c ha]
      exact find_map_update_self s c ha
  | false =>
      rw [uoc_fst_create s c ha, List.find?_append]
      have hnone : s.find? (fun y => y.claim_id == c.claim_id) = none := by
        rw [List.find?_eq_none]
        intro x hxmem hpx
        have : s.any (fun x => x.claim_id == c.claim_id) = true :=
          List.any_eq_true.mpr ⟨x, hxmem, hpx⟩
        rw [ha] at this
        exact Bool.false_ne_true this
      rw [hnone, List.find?_cons]
      simp only [beq_self_eq_true]
      rfl

theorem lookup_update_other (s : List ClaimRec) (c : ClaimRec) (k : String)
    (hk : k ≠ c.claim_id) :
    lookupClaim (update_or_create_claim s c).1 k = lookupClaim s k := by
  unfold lookupClaim
  cases ha : s.any (fun x => x.claim_id == c.claim_id) with
  | true =>
      rw [uoc_fst_update s c ha]
      exact find_map_update_other s c k hk
  | false =>
      rw [uoc_fst_create s c ha, List.find?_append]
      have hck : (c.claim_id == k) = false :=
        beq_eq_false_iff_ne.mpr (Ne.symm hk)
      rw [show [c].find? (fun y => y.claim_id == k) = none by
        rw [List.find?_cons]
        simp only [hck]
        rfl]
      cases hf : s.find? (fun y => y.claim_id == k) <;> rfl

theorem writtenKeys_cons_skip (r : RawRow) (rs : List RawRow)
    (hp : parseClaimRowCLI r = none) :
    writtenKeys (r :: rs) = writtenKeys rs := by
  simp [writtenKeys, List.filterMap_cons, hp]

theorem writtenKeys_cons_accept (r : RawRow) (rs : List RawRow) (c : ClaimRec)
    (hp : parseClaimRowCLI r = some c) (hv : claimValid c = true) :
    writtenKeys (r :: rs) = c.claim_id :: writtenKeys rs := by
  simp [writtenKeys, List.filterMap_cons, hp, hv]

theorem load_claims_ids_mono : ∀ (rows : List RawRow) (s t : List ClaimRec)
    (n : Nat), Cli.load_claims rows s = .ok (t, n) →
    ∀ k, k ∈ ids s → k ∈ ids t
  | [], s, t, n, h, k, hk => by
      simp only [Cli.load_claims, Except.ok.injEq, Prod.mk.injEq] at h
      rw [← h.1]
      exact hk
  | r :: rs, s, t, n, h, k, hk => by
      cases hp : parseClaimRowCLI r with
      | none =>
          simp only [Cli.load_claims, hp] at h
          exact load_claims_ids_mono rs s t n h k hk
      | some c =>
          simp only [Cli.load_claims, hp] at h
          by_cases hv : claimValid c = true
          · rw [if_pos hv] at h
            cases hrec : Cli.load_claims rs (update_or_create_claim s c).1 with
            | ok p =>
                obtain ⟨p1, p2⟩ := p
                rw [hrec] at h
                simp only [Except.ok.injEq, Prod.mk.injEq] at h
                rw [← h.1]
                exact load_claims_ids_mono rs _ p1 p2 hrec k
                  (mem_ids_update s c k hk)
            | error e =>
                rw [hrec] at h
                exact absurd h (by simp)
          · rw [if_neg hv] at h
            exact absurd h (by simp)

theorem load_claims_nodup : ∀ (rows : List RawRow) (s t : List ClaimRec)
    (n : Nat), Cli.load_claims rows s = .ok (t, n) →
    (ids s).Nodup → (ids t).Nodup
  | [], s, t, n, h, hnd => by
      simp only [Cli.load_claims, Except.ok.injEq, Prod.mk.injEq] at h
      rw [← h.1]
      exact hnd
  | r :: rs, s, t, n, h, hnd => by
      cases hp : parseClaimRowCLI r with
      | none =>
          simp only [Cli.load_claims, hp] at h
          exact load_claims_nodup rs s t n h hnd
      | some c =>
          simp only [Cli.load_claims, hp] at h
          by_cases hv : claimValid c = true
          · rw [if_pos hv] at h
            cases hrec : Cli.load_claims rs (update_or_create_claim s c).1 with
            | ok p =>
                obtain ⟨p1, p2⟩ := p
                rw [hrec] at h
                simp only [Except.ok.injEq, Prod.mk.injEq] at h
                rw [← h.1]
                exact load_claims_nodup rs _ p1 p2 hrec
                  (nodup_ids_update s c hnd)
            | error e =>
                rw [hrec] at h
                exact absurd h (by simp)
          · rw [if_neg hv] at h
            exact absurd h (by simp)

theorem load_claims_frame : ∀ (rows : List RawRow) (s t : List ClaimRec)
    (n : Nat) (k : String), Cli.load_claims rows s = .ok (t, n) →
    k ∉ writtenKeys rows → lookupClaim t k = lookupClaim s k
  | [], s, t, n, k, h, _ => by
      simp only [Cli.load_claims, Except.ok.injEq, Prod.mk.injEq] at h
      rw [h.1]
  | r :: rs, s, t, n, k, h, hw => by
      cases hp : parseClaimRowCLI r with
      | none =>
          simp only [Cli.load_claims, hp] at h
          exact load_claims_frame rs s t n k h
            (by rwa [writtenKeys_cons_skip r rs hp] at hw)
      | some c =>
          simp only [Cli.load_claims, hp] at h
          by_cases hv : claimValid c = true
          · rw [if_pos hv] at h
            rw [writtenKeys_cons_accept r rs c hp hv] at hw
            have hw1 : k ≠ c.claim_id := fun he => hw (he ▸ List.mem_cons_self _ _)
            have hw2 : k ∉ writtenKeys rs := fun hm => hw (List.mem_cons_of_mem _ hm)
            cases hrec : Cli.load_claims rs (update_or_create_claim s c).1 with
            | ok p =>
                obtain ⟨p1, p2⟩ := p
                rw [hrec] at h
                simp only [Except.ok.injEq, Prod.mk.injEq] at h
                rw [← h.1]
                rw [load_claims_frame rs _ p1 p2 k hrec hw2]
                exact lookup_update_other s c k hw1
            | error e =>
                rw [hrec] at h
                exact absurd h (by simp)
          · rw [if_neg hv] at h
            exact absurd h (by simp)

theorem store_ext : ∀ (s t : List ClaimRec), (ids s).Nodup → ids s = ids t →
    (∀ k, lookupClaim s k = lookupClaim t k) → s = t
  | [], [], _, _, _ => rfl
  | [], y :: ys, _, hids, _ => by simp [ids] at hids
  | x :: xs, [], _, hids, _ => by simp [ids] at hids
  | x :: xs, y :: ys, hnd, hids, hvals => by
      simp only [ids, List.map_cons, List.cons.injEq] at hids
      obtain ⟨hkey, htail⟩ := hids
      have hx : lookupClaim (x :: xs) x.claim_id = some x := by
        unfold lookupClaim
        rw [List.find?_cons]
        simp only [beq_self_eq_true]
      have hy : lookupClaim (y :: ys) x.claim_id = some y := by
        unfold lookupClaim
        rw [List.find?_cons]
        have hb : (y.claim_id == x.claim_id) = true := by
          rw [hkey]
          exact beq_self_eq_true _
        simp only [hb]
      have hxy : x = y := by
        have h := hvals x.claim_id
        rw [hx, hy] at h
        injection h
      subst hxy
      have hnds : (ids (x :: xs)).Nodup := hnd
      simp only [ids, List.map_cons, List.nodup_cons] at hnds
      have hxnot : x.claim_id ∉ xs.map (fun c => c.claim_id) := hnds.1
      have hnd' : (ids xs).Nodup := hnds.2
      have hynot : x.claim_id ∉ ys.map (fun c => c.claim_id) := by
        rw [← htail]
        exact hxnot
      have hvals' : ∀ k, lookupClaim xs k = lookupClaim ys k := by
        intro k
        by_cases hk : k = x.claim_id
        · subst hk
          rw [(lookup_eq_none_iff xs x.claim_id).mpr hxnot,
            (lookup_eq_none_iff ys x.claim_id).mpr hynot]
        · have h := hvals k
          unfold lookupClaim at h ⊢
          rw [List.find?_cons, List.find?_cons] at h
          have hxk : (x.claim_id == k) = false :=
            beq_eq_false_iff_ne.mpr (fun he => hk he.symm)
          simp only [hxk] at h
          exact h
      have htail' : ids xs = ids ys := htail
      rw [store_ext xs ys hnd' htail' hvals']

theorem load_claims_replay : ∀ (rows : List RawRow) (s t s₁ : List ClaimRec)
    (n : Nat), Cli.load_claims rows s = .ok (t, n) →
    (ids s₁).Nodup → ids s₁ = ids t →
    (∀ k, lookupClaim s₁ k = lookupClaim t k ∨ k ∈ writtenKeys rows) →
    Cli.load_claims rows s₁ = .ok (t, 0)
  | [], s, t, s₁, n, h, hnd₁, hids, hvals => by
      simp only [Cli.load_claims, Except.ok.injEq, Prod.mk.injEq] at h
      have hs : s₁ = t :=
        store_ext s₁ t hnd₁ hids
          (fun k => (hvals k).resolve_right (by simp [writtenKeys]))
      simp only [Cli.load_claims, hs]
  | r :: rs, s, t, s₁, n, h, hnd₁, hids, hvals => by
      cases hp : parseClaimRowCLI r with
      | none =>
          simp only [Cli.load_claims, hp] at h ⊢
          refine load_claims_replay rs s t s₁ n h hnd₁ hids (fun k => ?_)
          rcases hvals k with hl | hr
          · exact Or.inl hl
          · right
            rwa [writtenKeys_cons_skip r rs hp] at hr
      | some c =>
          simp only [Cli.load_claims, hp] at h ⊢
          by_cases hv : claimValid c = true
          · rw [if_pos hv] at h ⊢
            cases hrec : Cli.load_claims rs (update_or_create_claim s c).1 with
            | error e =>
                rw [hrec] at h
                exact absurd h (by simp)
            | ok p =>
                obtain ⟨t', n'⟩ := p
                rw [hrec] at h
                simp only [Except.ok.injEq, Prod.mk.injEq] at h
                obtain ⟨ht, _⟩ := h
                subst ht
                have hcidt : c.claim_id ∈ ids t' :=
                  load_claims_ids_mono rs _ t' n' hrec c.claim_id
                    (self_mem_ids_update s c)
                have hany : s₁.any (fun x => x.claim_id == c.claim_id) = true :=
                  (mem_ids_any s₁ c.claim_id).mpr (by rw [hids]; exact hcidt)
                have hcr : (update_or_create_claim s₁ c).2 = false := by
                  rw [uoc_created, hany]
                  rfl
                have hids' : ids (update_or_create_claim s₁ c).1 = ids t' := by
                  rw [ids_update, if_pos (by rw [hids]; exact hcidt)]
                  exact hids
                have hnd' := nodup_ids_update s₁ c hnd₁
                have hvals' : ∀ k,
                    lookupClaim (update_or_create_claim s₁ c).1 k =
                      lookupClaim t' k ∨ k ∈ writtenKeys rs := by
                  intro k
                  by_cases hk : k = c.claim_id
                  · subst hk
                    by_cases hwk : c.claim_id ∈ writtenKeys rs
                    · exact Or.inr hwk
                    · left
                      rw [lookup_update_self s₁ c,
                        load_claims_frame rs _ t' n' c.claim_id hrec hwk]
                      exact (lookup_update_self s c).symm
                  · rcases hvals k with hl | hr
                    · left
                      rw [lookup_update_other s₁ c k hk]
                      exact hl
                    · rw [writtenKeys_cons_accept r rs c hp hv] at hr
                      rcases List.mem_cons.mp hr with he | hm
                      · exact absurd he hk
                      · exact Or.inr hm
                have hrep := load_claims_replay rs
                  (update_or_create_claim s c).1 t'
                  (update_or_create_claim s₁ c).1 n' hrec hnd' hids' hvals'
                rw [hrep, hcr]
                simp
          · rw [if_neg hv] at h
            exact absurd h (by simp)

/-- **C4.**  Append-mode idempotence of the claims load: if loading a claims
source into a store (whose claim identifiers are distinct, as the database's
unique constraint guarantees) succeeds and produces store `t`, then loading
the same source again over `t` succeeds, leaves every stored claim exactly as
it was — same claim count, same field values — and reports zero creations:
the second run is pure in-place update keyed by `claim_id`. -/
theorem append_reimport_idempotent (rows : List Erisa.RawRow)
    (s t : List Erisa.ClaimRec) (n : Nat)
    (hnd : (Erisa.ids s).Nodup)
    (h : Erisa.Cli.load_claims rows s = .ok (t, n)) :
    Erisa.Cli.load_claims rows t = .ok (t, 0) :=
  load_claims_replay rows s t t n h
    (load_claims_nodup rows s t n h hnd) rfl (fun _ => Or.inl rfl)

set_option maxRecDepth 10000 in
/-- **C4** (witness): re-importing the single-row source over the store it
produced updates in place and creates nothing. -/
theorem append_reimport_idempotent_witness :
    Erisa.Cli.load_claims [rowGood] [claimGood] = .ok ([claimGood], 0) :=
  append_reimport_idempotent [rowGood] [] [claimGood] 1 (by decide)
    (by with_unfolding_all decide)

set_option maxRecDepth 20000 in
/-- **C2** (counterexample).  The claim states the whole import is atomic in
the web-upload path as well: on an unrecoverable error nothing is committed.
In the code, `DataUploadView.post` runs without any transaction: an
overwrite upload whose second row fails validation reports the error, yet
the purge of the pre-existing claim and the first accepted row are already
committed — the final store is neither the original one nor empty. -/
theorem web_upload_not_atomic :
    (Erisa.Web.post "overwrite" [pipeHeader, pipeRowGood, pipeRowBad] []
      "f" dbOld).2 = some "ValidationError" ∧
    (Erisa.Web.post "overwrite" [pipeHeader, pipeRowGood, pipeRowBad] []
      "f" dbOld).1.claims = [claimGood] ∧
    dbOld.claims = [claimOld] ∧ claimGood ≠ claimOld := by
  refine ⟨?_, ?_, ?_, ?_⟩ <;> with_unfolding_all decide

set_option maxRecDepth 20000 in
/-- **C2** (amended).  For the command-line import the whole operation
(purge, claims load, details load, summary write) is atomic: whenever
`handle` reports an error the database is exactly the one from before the
import, while per-row parse failures are skipped without aborting (a batch
with a malformed-date row succeeds and loads the remaining valid row).  The
web-upload path gives no such guarantee. -/
theorem cli_import_atomic :
    (∀ (mode : String) (cl dl : List String) (f : String) (db : Erisa.DB)
      (e : String), (Erisa.Cli.handle mode cl dl f db).2 = some e →
        (Erisa.Cli.handle mode cl dl f db).1 = db) ∧
    (Erisa.Cli.handle "append" [pipeHeader, pipeRowBadDate, pipeRowGood] []
      "f" emptyDB).2 = none ∧
    (Erisa.Cli.handle "append" [pipeHeader, pipeRowBadDate, pipeRowGood] []
      "f" emptyDB).1.claims = [claimGood] := by
  refine ⟨?_, ?_, ?_⟩
  · intro mode cl dl f db e h
    unfold Erisa.Cli.handle at h ⊢
    cases hb : Erisa.Cli.handle_body mode cl dl f db with
    | ok db1 =>
        rw [hb] at h
        simp at h
    | error e1 =>
        rfl
  · with_unfolding_all decide
  · with_unfolding_all decide

set_option maxRecDepth 20000 in
/-- **C2** (witness): a concrete failing command-line import — its second
row violates the paid-versus-billed invariant — leaves the database exactly
as it was. -/
theorem cli_import_atomic_witness :
    (Erisa.Cli.handle "append" [pipeHeader, pipeRowBad] [] "f" dbOld).1 =
      dbOld :=
  cli_import_atomic.1 "append" [pipeHeader, pipeRowBad] [] "f" dbOld
    "ValidationError" (by with_unfolding_all decide)

theorem cli_details_empty_claims : ∀ (rows : List Erisa.RawRow)
    (ds : List Erisa.DetailRec),
    Erisa.Cli.load_claim_details rows [] ds = (ds, 0)
  | [], _ => rfl
  | r :: rs, ds => by
      cases hk : Erisa.getCol r "claim_id" with
      | none =>
          simp only [Erisa.Cli.load_claim_details, hk]
          exact cli_details_empty_claims rs ds
      | some k =>
          simp only [Erisa.Cli.load_claim_details, hk, Erisa.lookupClaim,
            List.find?_nil]
          exact cli_details_empty_claims rs ds

theorem web_details_empty_claims : ∀ (rows : List Erisa.RawRow)
    (ds : List Erisa.DetailRec),
    Erisa.Web.upsert_detail_rows rows [] ds = (ds, 0)
  | [], _ => rfl
  | r :: rs, ds => by
      cases hk : Erisa.getCol r "claim_id" with
      | none =>
          simp only [Erisa.Web.upsert_detail_rows, hk]
          exact web_details_empty_claims rs ds
      | some k =>
          simp only [Erisa.Web.upsert_detail_rows, hk, Erisa.lookupClaim,
            List.find?_nil]
          exact web_details_empty_claims rs ds

theorem ids_append_one (s : List Erisa.ClaimRec) (c : Erisa.ClaimRec) :
    Erisa.ids (s ++ [c]) = Erisa.ids s ++ [c.claim_id] := by
  simp [Erisa.ids]

theorem load_claims_all_created : ∀ (rows : List Erisa.RawRow)
    (s t : List Erisa.ClaimRec) (n : Nat),
    (Erisa.writtenKeys rows).Nodup →
    (∀ k, k ∈ Erisa.writtenKeys rows → k ∉ Erisa.ids s) →
    Erisa.Cli.load_claims rows s = .ok (t, n) →
    n = (Erisa.writtenKeys rows).length ∧ t.length = s.length + n
  | [], s, t, n, _, _, h => by
      simp only [Erisa.Cli.load_claims, Except.ok.injEq, Prod.mk.injEq] at h
      obtain ⟨h1, h2⟩ := h
      subst h1
      simp [Erisa.writtenKeys, ← h2]
  | r :: rs, s, t, n, hnd, hfresh, h => by
      cases hp : Erisa.parseClaimRowCLI r with
      | none =>
          simp only [Erisa.Cli.load_claims, hp] at h
          rw [writtenKeys_cons_skip r rs hp] at hnd hfresh ⊢
          exact load_claims_all_created rs s t n hnd hfresh h
      | some c =>
          simp only [Erisa.Cli.load_claims, hp] at h
          by_cases hv : Erisa.claimValid c = true
          · rw [if_pos hv] at h
            rw [writtenKeys_cons_accept r rs c hp hv] at hnd hfresh ⊢
            rw [List.nodup_cons] at hnd
            have hcid : c.claim_id ∉ Erisa.ids s :=
              hfresh c.claim_id (List.mem_cons_self _ _)
            have hany : s.any (fun x => x.claim_id == c.claim_id) = false := by
              cases hb : s.any (fun x => x.claim_id == c.claim_id)
              · rfl
              · exact absurd ((mem_ids_any s c.claim_id).mp hb) hcid
            have hfst := uoc_fst_create s c hany
            have hsnd : (Erisa.update_or_create_claim s c).2 = true := by
              rw [uoc_created, hany]
              rfl
            cases hrec : Erisa.Cli.load_claims rs
                (Erisa.update_or_create_claim s c).1 with
            | error e =>
                rw [hrec] at h
                exact absurd h (by simp)
            | ok p =>
                obtain ⟨t1, n1⟩ := p
                rw [hrec] at h
                simp only [Except.ok.injEq, Prod.mk.injEq] at h
                obtain ⟨ht, hn⟩ := h
                subst ht
                have hfresh' : ∀ k, k ∈ Erisa.writtenKeys rs →
                    k ∉ Erisa.ids (Erisa.update_or_create_claim s c).1 := by
                  intro k hkmem
                  rw [hfst, ids_append_one]
                  intro hmem
                  rcases List.mem_append.mp hmem with hin | hin
                  · exact hfresh k (List.mem_cons_of_mem _ hkmem) hin
                  · rcases List.mem_singleton.mp hin with rfl
                    exact hnd.1 hkmem
                obtain ⟨ihn, ihlen⟩ :=
                  load_claims_all_created rs _ _ n1 hnd.2 hfresh' hrec
                rw [hsnd] at hn
                constructor
                · rw [← hn, ihn]
                  simp [Nat.add_comm]
                · rw [ihlen, hfst, ← hn]
                  simp [List.length_append]
                  omega
          · rw [if_neg hv] at h
            exact absurd h (by simp)

theorem cli_handle_overwrite_empty (dl : List String) (f : String)
    (db : Erisa.DB) :
    (Erisa.Cli.handle "overwrite" [] dl f db).1.claims = [] := by
  unfold Erisa.Cli.handle Erisa.Cli.handle_body Erisa.Cli.readClaimRows
  simp [Erisa.readRows, cli_details_empty_claims,
    show Erisa.Cli.load_claims [] [] = .ok ([], 0) from rfl]

theorem web_post_overwrite_empty (dl : List String) (f : String)
    (db : Erisa.DB) :
    (Erisa.Web.post "overwrite" [] dl f db).1.claims = [] := by
  unfold Erisa.Web.post Erisa.Web.process_claims_file
    Erisa.Web.process_details_file
  cases dl with
  | nil => simp
  | cons h ls => simp [web_details_empty_claims]

set_option maxRecDepth 20000 in
/-- **C5** (counterexample).  The claim states every row accepted during an
overwrite import becomes a creation.  When the source repeats a claim_id,
the second occurrence is accepted — the web loader counts it as processed
and its values win — but `update_or_create` finds the claim created moments
earlier in the same batch and updates it: its `created` flag is false and
the CLI creation count stays 1 for 2 accepted rows. -/
theorem overwrite_duplicate_id_updates :
    Erisa.Cli.load_claims [rowGood, rowGoodV2] [] = .ok ([claimGoodV2], 1) ∧
    Erisa.Web.upsert_claim_rows [rowGood, rowGoodV2] [] =
      ([claimGoodV2], .ok 2) ∧
    (Erisa.update_or_create_claim [claimGood] claimGoodV2).2 = false := by
  refine ⟨?_, ?_, ?_⟩ <;> with_unfolding_all decide

/-- **C5** (amended).  In overwrite mode all existing Claim and ClaimDetail
records are purged before any row is processed — the import's outcome is
independent of the prior claims and details, and an overwrite import with an
empty claims source leaves zero claims in either load path — and every
accepted row whose claim_id is distinct from the other accepted rows' ids
becomes a creation: for a source with pairwise-distinct accepted ids the
creation count equals the accepted-row count and the final store size.
Accepted rows repeating an id of the same batch update the earlier creation
instead. -/
theorem overwrite_purges_and_creates :
    (∀ (dl : List String) (f : String) (db : Erisa.DB),
      (Erisa.Cli.handle "overwrite" [] dl f db).1.claims = [] ∧
      (Erisa.Web.post "overwrite" [] dl f db).1.claims = []) ∧
    (∀ (cl dl : List String) (f : String) (db : Erisa.DB),
      Erisa.Cli.handle_body "overwrite" cl dl f db =
        Erisa.Cli.handle_body "overwrite" cl dl f ⟨[], [], db.uploads⟩) ∧
    (∀ (rows : List Erisa.RawRow) (t : List Erisa.ClaimRec) (n : Nat),
      (Erisa.writtenKeys rows).Nodup →
      Erisa.Cli.load_claims rows [] = .ok (t, n) →
      n = (Erisa.writtenKeys rows).length ∧ t.length = n) := by
  refine ⟨?_, ?_, ?_⟩
  · intro dl f db
    exact ⟨cli_handle_overwrite_empty dl f db, web_post_overwrite_empty dl f db⟩
  · intro cl dl f db
    rfl
  · intro rows t n hnd h
    have hc := load_claims_all_created rows [] t n hnd (by simp [Erisa.ids]) h
    exact ⟨hc.1, by simpa using hc.2⟩

set_option maxRecDepth 20000 in
/-- **C5** (witness): overwriting a database that held a claim with an empty
source leaves zero claims in both paths, and a distinct-id source creates
exactly its accepted rows. -/
theorem overwrite_purges_and_creates_witness :
    (Erisa.Cli.handle "overwrite" [] [] "f" dbOld).1.claims = [] ∧
    (Erisa.Web.post "overwrite" [] [] "f" dbOld).1.claims = [] ∧
    (1 : Nat) = (Erisa.writtenKeys [rowGood]).length ∧
    ([claimGood] : List Erisa.ClaimRec).length = 1 := by
  have h1 := overwrite_purges_and_creates.1 [] "f" dbOld
  have h3 := overwrite_purges_and_creates.2.2 [rowGood] [claimGood] 1
    (by with_unfolding_all decide) (by with_unfolding_all decide)
  exact ⟨h1.1, h1.2, h3.1, h3.2⟩

theorem parseCLI_of_strs_none (r : Erisa.RawRow)
    (h : Erisa.parseClaimRowStrs r = none) :
    Erisa.parseClaimRowCLI r = none := by
  unfold Erisa.parseClaimRowCLI
  rw [h]
  rfl

theorem parseCLI_of_strs_some (r : Erisa.RawRow) (p : Erisa.ClaimRowStrs)
    (hp : Erisa.parseClaimRowStrs r = some p) :
    Erisa.parseClaimRowCLI r = Erisa.coerceAmounts p := by
  unfold Erisa.parseClaimRowCLI
  rw [hp]
  rfl

theorem web_ok_cli_ok : ∀ (rows : List Erisa.RawRow)
    (s t : List Erisa.ClaimRec) (wn : Nat),
    Erisa.Web.upsert_claim_rows rows s = (t, .ok wn) →
    ∃ cn, Erisa.Cli.load_claims rows s = .ok (t, cn) ∧ cn ≤ wn
  | [], s, t, wn, h => by
      simp only [Erisa.Web.upsert_claim_rows, Prod.mk.injEq,
        Except.ok.injEq] at h
      obtain ⟨h1, h2⟩ := h
      subst h1
      exact ⟨0, by simp [Erisa.Cli.load_claims], Nat.zero_le _⟩
  | r :: rs, s, t, wn, h => by
      cases hps : Erisa.parseClaimRowStrs r with
      | none =>
          simp only [Erisa.Web.upsert_claim_rows, hps] at h
          obtain ⟨cn, hcn, hle⟩ := web_ok_cli_ok rs s t wn h
          exact ⟨cn, by
            simp only [Erisa.Cli.load_claims, parseCLI_of_strs_none r hps]
            exact hcn, hle⟩
      | some p =>
          simp only [Erisa.Web.upsert_claim_rows, hps] at h
          cases hco : Erisa.coerceAmounts p with
          | none =>
              simp only [hco] at h
              simp at h
          | some c =>
              simp only [hco] at h
              by_cases hv : Erisa.claimValid c = true
              · rw [if_pos hv] at h
                cases hrec : Erisa.Web.upsert_claim_rows rs
                    (Erisa.update_or_create_claim s c).1 with
                | mk t2 res =>
                    rw [hrec] at h
                    cases res with
                    | error e => simp at h
                    | ok n =>
                        simp only [Prod.mk.injEq, Except.ok.injEq] at h
                        obtain ⟨ht, hn⟩ := h
                        subst ht
                        obtain ⟨cn, hcn, hle⟩ :=
                          web_ok_cli_ok rs _ t2 n hrec
                        refine ⟨cn + (if (Erisa.update_or_create_claim s c).2
                          then 1 else 0), ?_, ?_⟩
                        · simp only [Erisa.Cli.load_claims,
                            parseCLI_of_strs_some r p hps, hco, if_pos hv,
                            hcn]
                        · rw [← hn]
                          split_ifs <;> omega
              · rw [if_neg hv] at h
                simp at h

theorem web_ok_cli_eq : ∀ (rows : List Erisa.RawRow)
    (s t : List Erisa.ClaimRec) (wn : Nat),
    Erisa.Web.upsert_claim_rows rows s = (t, .ok wn) →
    (Erisa.writtenKeys rows).Nodup →
    (∀ k, k ∈ Erisa.writtenKeys rows → k ∉ Erisa.ids s) →
    Erisa.Cli.load_claims rows s = .ok (t, wn)
  | [], s, t, wn, h, _, _ => by
      simp only [Erisa.Web.upsert_claim_rows, Prod.mk.injEq,
        Except.ok.injEq] at h
      obtain ⟨h1, h2⟩ := h
      subst h1
      simp [Erisa.Cli.load_claims, h2]
  | r :: rs, s, t, wn, h, hnd, hfresh => by
      cases hps : Erisa.parseClaimRowStrs r with
      | none =>
          simp only [Erisa.Web.upsert_claim_rows, hps] at h
          have hcli : Erisa.parseClaimRowCLI r = none :=
            parseCLI_of_strs_none r hps
          rw [writtenKeys_cons_skip r rs hcli] at hnd hfresh
          simp only [Erisa.Cli.load_claims, hcli]
          exact web_ok_cli_eq rs s t wn h hnd hfresh
      | some p =>
          simp only [Erisa.Web.upsert_claim_rows, hps] at h
          cases hco : Erisa.coerceAmounts p with
          | none =>
              simp only [hco] at h
              simp at h
          | some c =>
              simp only [hco] at h
              have hcli : Erisa.parseClaimRowCLI r = some c := by
                rw [parseCLI_of_strs_some r p hps, hco]
              by_cases hv : Erisa.claimValid c = true
              · rw [if_pos hv] at h
                rw [writtenKeys_cons_accept r rs c hcli hv] at hnd hfresh
                rw [List.nodup_cons] at hnd
                have hcid : c.claim_id ∉ Erisa.ids s :=
                  hfresh c.claim_id (List.mem_cons_self _ _)
                have hany : s.any (fun x => x.claim_id == c.claim_id) =
                    false := by
                  cases hb : s.any (fun x => x.claim_id == c.claim_id)
                  · rfl
                  · exact absurd ((mem_ids_any s c.claim_id).mp hb) hcid
                have hsnd : (Erisa.update_or_create_claim s c).2 = true := by
                  rw [uoc_created, hany]
                  rfl
                have hfresh' : ∀ k, k ∈ Erisa.writtenKeys rs →
                    k ∉ Erisa.ids (Erisa.update_or_create_claim s c).1 := by
                  intro k hkmem
                  rw [uoc_fst_create s c hany, ids_append_one]
                  intro hmem
                  rcases List.mem_append.mp hmem with hin | hin
                  · exact hfresh k (List.mem_cons_of_mem _ hkmem) hin
                  · rcases List.mem_singleton.mp hin with rfl
                    exact hnd.1 hkmem
                cases hrec : Erisa.Web.upsert_claim_rows rs
                    (Erisa.update_or_create_claim s c).1 with
                | mk t2 res =>
                    rw [hrec] at h
                    cases res with
                    | error e => simp at h
                    | ok n =>
                        simp only [Prod.mk.injEq, Except.ok.injEq] at h
                        obtain ⟨ht, hn⟩ := h
                        subst ht
                        have ih := web_ok_cli_eq rs _ t2 n hrec hnd.2 hfresh'
                        simp only [Erisa.Cli.load_claims, hcli, if_pos hv,
                          ih, hsnd, ← hn]
                        simp
              · rw [if_neg hv] at h
                simp at h

set_option maxRecDepth 20000 in
/-- **C10** (counterexample).  The claim states the command-line and the
web-upload loaders report the same accepted-claims count against the same
prior store, counting updates like creations.  Processing a valid row whose
claim_id already exists, the CLI (which increments only on `created`)
reports 0 while the web loader (which counts every accepted row) reports 1:
the counts disagree whenever an accepted row is an update. -/
theorem web_cli_count_disagree :
    Erisa.Cli.load_claims [rowGoodV2] [claimGood] = .ok ([claimGoodV2], 0) ∧
    Erisa.Web.upsert_claim_rows [rowGoodV2] [claimGood] =
      ([claimGoodV2], .ok 1) ∧
    (0 : Nat) ≠ 1 := by
  refine ⟨?_, ?_, ?_⟩ <;> with_unfolding_all decide

/-- **C10** (amended).  Whenever the web-upload loader succeeds, the
command-line loader computes the same final store, and its reported count —
creations only — never exceeds the web loader's count of all accepted rows;
the two counts coincide when the prior store contains none of the source's
accepted claim ids and those ids are pairwise distinct, i.e. exactly when
every accepted row is a creation. -/
theorem web_cli_count_relation (rows : List Erisa.RawRow)
    (s t : List Erisa.ClaimRec) (wn : Nat)
    (h : Erisa.Web.upsert_claim_rows rows s = (t, .ok wn)) :
    (∃ cn, Erisa.Cli.load_claims rows s = .ok (t, cn) ∧ cn ≤ wn) ∧
    ((Erisa.writtenKeys rows).Nodup →
      (∀ k, k ∈ Erisa.writtenKeys rows → k ∉ Erisa.ids s) →
      Erisa.Cli.load_claims rows s = .ok (t, wn)) :=
  ⟨web_ok_cli_ok rows s t wn h,
   fun hnd hfresh => web_ok_cli_eq rows s t wn h hnd hfresh⟩

set_option maxRecDepth 20000 in
/-- **C10** (witness): on a fresh store both loaders accept the single valid
row and report 1. -/
theorem web_cli_count_relation_witness :
    Erisa.Cli.load_claims [rowGood] [] = .ok ([claimGood], 1) :=
  (web_cli_count_relation [rowGood] [] [claimGood] 1
      (by with_unfolding_all decide)).2
    (by with_unfolding_all decide) (by with_unfolding_all decide)
